import Mathlib

/-!
Verification of the `yeval` validation engine.

A shallow embedding of `src/create-validator.js` and `src/util.js`:
a recursive, asynchronous validation engine for nested key/value data.

Modelling decisions (uniform across the file):
* JS values are the first-order inductive `Val`; `undefined` is `Val.undefined`.
* A promise is modelled by its resolved value; the sequencing performed by
  bluebird's `Promise.mapSeries` and by the `reduce` promise chains is
  modelled by a writer monad over an event trace (`Trace`): each rule may
  emit events, and the engine concatenates traces in the order in which the
  promise chains of the source resolve.  "Rule R was never invoked" is
  observable as "R's events are absent from the trace".
* A `Rule` (`(value, wholeData) → Promise<ErrorMessage|undefined>`) becomes
  `Val → Val → Trace × Val`.
* The runtime structural dispatch of the source (`isPlainObject`,
  `castArray`, `isFunction`) is rendered as the tagged type `RuleSpec`
  (single rule / array of rules / nested plain-object tree), resolved at
  each use exactly where the source inspects the shape.
-/

set_option linter.unusedVariables false

namespace Yeval

/-- JS-like runtime values.  Functions never occur as data in the engine's
error reports, so `Val` is first order. -/
inductive Val where
  | undefined
  | null
  | bool (b : Bool)
  | num (n : Int)
  | str (s : String)
  | arr (elems : List Val)
  | obj (fields : List (String × Val))

/-- The test `v === undefined`. -/
def isUndefined : Val → Bool
  | .undefined => true
  | _ => false

/-- Source: `containsError = validationResult => validationResult !== undefined`
(`src/util.js`). -/
def containsError (validationResult : Val) : Bool :=
  !(isUndefined validationResult)

/-- JS `Boolean(v)` coercion (`undefined`, `null`, `false`, `0`, `''` are
falsy; every array and object is truthy). -/
def truthy : Val → Bool
  | .undefined => false
  | .null => false
  | .bool b => b
  | .num n => n != 0
  | .str s => s != ""
  | .arr _ => true
  | .obj _ => true

/-- lodash `isEmpty`: `true` on `undefined`, `null`, every boolean and
number, the empty string, the empty array and the empty object. -/
def isEmptyVal : Val → Bool
  | .undefined => true
  | .null => true
  | .bool _ => true
  | .num _ => true
  | .str s => s == ""
  | .arr xs => xs.isEmpty
  | .obj fs => fs.isEmpty

/-- lodash `isPlainObject` on data values: only a plain key/value mapping. -/
def isPlainObject : Val → Bool
  | .obj _ => true
  | _ => false

/-- JS property read `data[key]` as the engine uses it: field lookup on a
plain object, `undefined` on everything else. -/
def objGet : Val → String → Val
  | .obj fields, key =>
    match fields.find? (fun p => p.1 == key) with
    | some p => p.2
    | none => .undefined
  | _, _ => .undefined

/-- Event trace left by rule executions, in resolution order. -/
abbrev Trace := List Nat

/-- A validation rule `(value, wholeData) → Promise<ErrorMessage|undefined>`:
it emits the events of its side effects and resolves with a `Val`
(`Val.undefined` meaning success). -/
abbrev Rule := Val → Val → Trace × Val

/-- Source `returnUndefinedOnSuccess` (`src/create-validator.js`): return
`undefined` if the errors object has zero keys, otherwise the object. -/
def returnUndefinedOnSuccess (errors : List (String × Val)) : Val :=
  if errors.isEmpty then .undefined else .obj errors

/-- Source `firstError(rules)` (`src/util.js`): run the rules in series; once a
rule resolves with a defined error, resolve with it and invoke no further
rule.  The `castArray` normalisation is done at the call sites. -/
def firstError (rules : List Rule) (value data : Val) : Trace × Val :=
  match rules with
  | [] => ([], .undefined)
  | r :: rest =>
    let step := r value data
    if containsError step.2 then step
    else
      let next := firstError rest value data
      (step.1 ++ next.1, next.2)

/-- JS `result.concat(x)`: an array argument is spliced element by element,
any other value is appended as a single element. -/
def jsConcatElems : Val → List Val
  | .arr xs => xs
  | v => [v]

/-- The accumulating `reduce` of `allErrors` (`src/util.js`): every rule
runs in series, each result is `concat`-ed onto the accumulator. -/
def allErrorsList (rules : List Rule) (value data : Val) : Trace × List Val :=
  match rules with
  | [] => ([], [])
  | r :: rest =>
    let step := r value data
    let next := allErrorsList rest value data
    (step.1 ++ next.1, jsConcatElems step.2 ++ next.2)

/-- Source `allErrors(rules)` (`src/util.js`): resolves with the accumulated array
of results. -/
def allErrors (rules : List Rule) (value data : Val) : Trace × Val :=
  let run := allErrorsList rules value data
  (run.1, .arr run.2)

/-- Source `oneOfRules(rules)` (`src/util.js`): run all rules through `allErrors`;
if no result is falsy (`errors.filter(err => !err).length === 0`), resolve
with the first truthy result (`errors.filter(err => !!err)[0]`), otherwise
with `undefined`. -/
def oneOfRules (rules : List Rule) (value data : Val) : Trace × Val :=
  let run := allErrorsList rules value data
  ( run.1,
    if (run.2.filter (fun e => !truthy e)).length == 0 then
      (run.2.filter (fun e => truthy e)).headD .undefined
    else .undefined )

/-- A `RuleSpec`, the source's runtime shape dispatch made explicit: a
single rule function, an array of rules, or a nested plain-object
`RuleTree` (a list of attribute/spec pairs in declaration order). -/
inductive RuleSpec where
  | rule (r : Rule)
  | rules (rs : List Rule)
  | tree (t : List (String × RuleSpec))

/-- The `castArray` normalisation on a non-plain-object `RuleSpec`. -/
def castRules : RuleSpec → List Rule
  | .rule r => [r]
  | .rules rs => rs
  | .tree _ => []

/-- Whether the attribute's validate function has `.then(storeErrors)`
attached in the source: the `firstError` branch and the nested-recursion
branch do, but the shape-mismatch branch (`src/create-validator.js` line
34) builds `() => Promise.resolve(message)` with no store step, so its
message is produced yet never recorded (`Promise.mapSeries` discards the
executors' resolved values). -/
def storesErrors : RuleSpec → Val → Bool
  | .tree _, dataToValidate => isPlainObject dataToValidate
  | _, _ => true

mutual

/-- The executor chain of `createValidator` (`src/create-validator.js`):
`Promise.mapSeries` over the per-attribute validate functions.  Where the
source attaches `.then(storeErrors)` (see `storesErrors`), the result is
recorded under the attribute key iff `containsError` holds; the
shape-mismatch branch has no store step, so its resolved message is
dropped.  Resolves with the entries of the `errors` object in insertion
order. -/
def runAttrs : List (String × RuleSpec) → Val → Val → Trace × List (String × Val)
  | [], _, _ => ([], [])
  | (key, spec) :: rest, wholeData, currentData =>
    let step := runSpec spec key (objGet currentData key) wholeData
    let next := runAttrs rest wholeData currentData
    ( step.1 ++ next.1,
      if storesErrors spec (objGet currentData key) && containsError step.2 then
        (key, step.2) :: next.2
      else next.2 )

/-- One attribute's `validateFunction` (`src/create-validator.js`): a
nested plain-object spec recurses through a nested validator when the data
is itself a plain object and otherwise yields the fixed message
`Property <key> must be an object`; any other spec is delegated to
`firstError`. -/
def runSpec : RuleSpec → String → Val → Val → Trace × Val
  | .rule r, _, dataToValidate, wholeData => firstError [r] dataToValidate wholeData
  | .rules rs, _, dataToValidate, wholeData => firstError rs dataToValidate wholeData
  | .tree t, key, dataToValidate, wholeData =>
    if isPlainObject dataToValidate then
      -- createValidator(rulesForKey, wholeData)(dataToValidate)
      let whole := if isEmptyVal wholeData then dataToValidate else wholeData
      let run := runAttrs t whole dataToValidate
      (run.1, returnUndefinedOnSuccess run.2)
    else
      ([], .str ("Property " ++ key ++ " must be an object"))

end

/-- One invocation of a validator built by
`createValidator(perAttributeRules, wholeData)` on `currentData`: the
closure first resolves `wholeData = isEmpty(wholeData) ? currentData :
wholeData`, runs the per-attribute executors in series and finishes with
`returnUndefinedOnSuccess`. -/
def createValidator (perAttributeRules : List (String × RuleSpec))
    (wholeData currentData : Val) : Trace × Val :=
  let whole := if isEmptyVal wholeData then currentData else wholeData
  let run := runAttrs perAttributeRules whole currentData
  (run.1, returnUndefinedOnSuccess run.2)

/-- Successive invocations of one built validator: the closure variable
`wholeData` persists across calls and is reassigned by
`wholeData = isEmpty(wholeData) ? currentData : wholeData` on each call.
Given the current closure value and the list of data arguments, returns
the list of call results. -/
def validatorCalls (perAttributeRules : List (String × RuleSpec)) :
    Val → List Val → List (Trace × Val)
  | _, [] => []
  | wholeData, d :: ds =>
    createValidator perAttributeRules wholeData d ::
      validatorCalls perAttributeRules (if isEmptyVal wholeData then d else wholeData) ds

/-- The shared delegation of `when` and `msgFor` (`src/util.js`): a
plain-object spec goes to a freshly required `createValidator(rules)`
applied to `value` (note: with the default — empty — `wholeData` seed),
anything else to `firstError` with `(value, data)`. -/
def runRules : RuleSpec → Val → Val → Trace × Val
  | .tree t, value, _ => createValidator t (.obj []) value
  | .rule r, value, data => firstError [r] value data
  | .rules rs, value, data => firstError rs value data

/-- The predicate argument of `when`: either a literal value (a promise is
modelled by its resolved value) or a function of `(value, wholeData)`. -/
inductive Pred where
  | lit (v : Val)
  | fn (f : Rule)

/-- Source: `isFunction(predicate) ? predicate(value, data) : predicate`. -/
def evalPred : Pred → Val → Val → Trace × Val
  | .lit v, _, _ => ([], v)
  | .fn f, value, data => f value data

/-- Source `when(predicate, rules)` (`src/util.js`): evaluate the predicate once;
if `Boolean(shouldExecute)` is false resolve with `undefined` without
touching `rules`, otherwise delegate as in `runRules`. -/
def when (predicate : Pred) (rules : RuleSpec) : Rule := fun value data =>
  let p := evalPred predicate value data
  if truthy p.2 then
    let run := runRules rules value data
    (p.1 ++ run.1, run.2)
  else
    (p.1, .undefined)

/-- Source `msgFor(rules, msg)` (`src/util.js`): run the rules as in `runRules`
and replace any defined result (`containsError`) by the fixed `msg`. -/
def msgFor (rules : RuleSpec) (msg : Val) : Rule := fun value data =>
  let run := runRules rules value data
  (run.1, if containsError run.2 then msg else .undefined)

/-- The results of a list of rules at a fixed input, in rule order. -/
def ruleVals (rules : List Rule) (value data : Val) : List Val :=
  rules.map (fun r => (r value data).2)

/-- The traces of a list of rules at a fixed input, in rule order. -/
def ruleTraces (rules : List Rule) (value data : Val) : List Trace :=
  rules.map (fun r => (r value data).1)

/-- Tests whether a value is a JS array. -/
def isArrayVal : Val → Bool
  | .arr _ => true
  | _ => false

lemma firstError_eq (rules : List Rule) (value data : Val) :
    firstError rules value data =
      ( ((ruleTraces rules value data).take
            ((ruleVals rules value data).findIdx containsError + 1)).flatten,
        (ruleVals rules value data).getD
          ((ruleVals rules value data).findIdx containsError) .undefined ) := by
  induction rules with
  | nil => simp [firstError, ruleVals, ruleTraces]
  | cons r rest ih =>
    cases h : containsError (r value data).2 with
    | true =>
      simp [firstError, ruleVals, ruleTraces, List.findIdx_cons, h]
    | false =>
      simp only [firstError, ruleVals, ruleTraces, List.map_cons, List.findIdx_cons, h,
        cond_false, List.take_succ_cons, List.flatten_cons, List.getD_cons_succ]
      rw [ih]
      simp [ruleVals, ruleTraces]

lemma firstError_trace_take (rules : List Rule) (value data : Val) :
    ∃ n, n ≤ rules.length ∧
      (firstError rules value data).1 = ((ruleTraces rules value data).take n).flatten := by
  induction rules with
  | nil => exact ⟨0, by simp, by simp [firstError, ruleTraces]⟩
  | cons r rest ih =>
    cases h : containsError (r value data).2 with
    | true =>
      refine ⟨1, by simp, ?_⟩
      simp [firstError, h, ruleTraces]
    | false =>
      obtain ⟨n, hn, he⟩ := ih
      refine ⟨n + 1, by simpa using hn, ?_⟩
      simp only [firstError, h, ruleTraces, List.map_cons, List.take_succ_cons,
        List.flatten_cons, cond_false]
      rw [he]
      simp [ruleTraces]

lemma allErrorsList_eq (rules : List Rule) (value data : Val) :
    allErrorsList rules value data =
      ( (ruleTraces rules value data).flatten,
        ((ruleVals rules value data).map jsConcatElems).flatten ) := by
  induction rules with
  | nil => simp [allErrorsList, ruleVals, ruleTraces]
  | cons r rest ih => simp [allErrorsList, ruleVals, ruleTraces, ih]

lemma jsConcatElems_of_not_array {e : Val} (h : isArrayVal e = false) :
    jsConcatElems e = [e] := by
  cases e <;> simp_all [jsConcatElems, isArrayVal]

lemma join_map_singletons (l : List Val) (h : ∀ e ∈ l, isArrayVal e = false) :
    (l.map jsConcatElems).flatten = l := by
  induction l with
  | nil => simp
  | cons e rest ih =>
    simp only [List.map_cons, List.flatten_cons]
    rw [jsConcatElems_of_not_array (h e (by simp)),
      ih (fun e' he' => h e' (by simp [he']))]
    simp

lemma runAttrs_trace (t : List (String × RuleSpec)) (w cur : Val) :
    (runAttrs t w cur).1 =
      (t.map fun ks => (runSpec ks.2 ks.1 (objGet cur ks.1) w).1).flatten := by
  induction t with
  | nil => simp [runAttrs]
  | cons p rest ih =>
    obtain ⟨k, s⟩ := p
    simp [runAttrs, ih]

lemma containsError_of_ne {v : Val} (h : v ≠ .undefined) : containsError v = true := by
  cases v <;> try rfl
  exact absurd rfl h

/-- A rule that resolves with the `wholeData` argument it was handed, making
the data each rule observes visible in the error report. -/
def probeRule : Rule := fun _ d => ([], d)

/-- C1 (code bug): at a shape-mismatch input the attribute's validation
task produces a defined error — `containsError` holds of the executor's
resolved value, the fixed message — yet the built validator resolves with
`undefined`, not with an `ErrorReport` holding a key for that attribute,
because the mismatch branch lacks the `storeErrors` step
(`src/create-validator.js` line 34). -/
theorem error_produced_but_undefined_result :
    containsError
        (runSpec (.tree [("city", .rule (fun _ _ => ([], Val.str "bad")))])
          "address" (.num 42) (.obj [("address", .num 42)])).2 = true ∧
    createValidator
        [("address", .tree [("city", .rule (fun _ _ => ([], Val.str "bad")))])]
        (.obj []) (.obj [("address", .num 42)])
      = ([], .undefined) := by
  refine ⟨rfl, rfl⟩

/-- C2 (code bug): a probe rule that resolves with the `wholeData` it was
handed, placed inside a nested `RuleTree` wrapped by `when`, observes the
locally nested sub-object — not the original top-level data — because
`when` (and `msgFor` alike) rebuild the nested validator without passing
`wholeData` on (`createValidator(rules)(value)` in `src/util.js`).  The
stored report exhibits the observed object, and it differs from the
top-level input.  The crate's own test suite asserts the opposite
behaviour, so this is recorded as a code bug. -/
theorem when_nested_wholeData_bug :
    createValidator
        [("car", .rule (when (.lit (.bool true))
            (.tree [("make", .rule probeRule)])))]
        (.obj [])
        (.obj [("deal", .str "purchase"), ("car", .obj [("make", .str "BMW")])])
      = ([], .obj [("car", .obj [("make", .obj [("make", .str "BMW")])])]) ∧
    Val.obj [("make", .str "BMW")]
        ≠ .obj [("deal", .str "purchase"), ("car", .obj [("make", .str "BMW")])] := by
  refine ⟨rfl, ?_⟩
  simp

/-- C3: `firstError` executes the rules strictly in order: its trace is the
concatenation of the traces of exactly the rules up to and including the
first rule whose result is a defined `ErrorMessage` (so rules after the
first failing one are never invoked and leave no events), it resolves with
exactly that first defined message, and it resolves with `undefined` when
every rule resolved with `undefined`. -/
theorem firstError_short_circuit (rules : List Rule) (value data : Val) :
    firstError rules value data =
      ( ((ruleTraces rules value data).take
            ((ruleVals rules value data).findIdx containsError + 1)).flatten,
        (ruleVals rules value data).getD
          ((ruleVals rules value data).findIdx containsError) .undefined ) :=
  firstError_eq rules value data

/-- C5: validation runs strictly in series — the trace of a validator
invocation is the concatenation of the per-attribute traces in declaration
order, so every event of an earlier attribute (its whole subtree included)
precedes every event of a later sibling; and a `firstError` rule sequence
contributes the concatenation of an initial segment of the individual rule
traces in rule order, so rule N+1 runs only after rule N resolved. -/
theorem validation_in_series :
    (∀ (t : List (String × RuleSpec)) (seed data : Val),
      (createValidator t seed data).1 =
        (t.map fun ks => (runSpec ks.2 ks.1 (objGet data ks.1)
            (if isEmptyVal seed then data else seed)).1).flatten) ∧
    (∀ (rules : List Rule) (value whole : Val), ∃ n, n ≤ rules.length ∧
      (firstError rules value whole).1
        = ((ruleTraces rules value whole).take n).flatten) := by
  constructor
  · intro t seed data
    exact runAttrs_trace t (if isEmptyVal seed then data else seed) data
  · intro rules value whole
    exact firstError_trace_take rules value whole

/-- C4 counterexample: a rule resolving with the defined falsy value `""`
is a failure under the canonical `containsError` test (no rule resolved
`undefined`), so per the claim `oneOfRules` must resolve with that first
failing message; the code instead counts the falsy result as a pass and
resolves with `undefined`. -/
theorem oneOfRules_defined_falsy_cex :
    oneOfRules [fun _ _ => (([] : Trace), Val.str "")] .undefined .undefined
        = ([], .undefined) ∧
    ruleVals [fun _ _ => (([] : Trace), Val.str "")] .undefined .undefined = [.str ""] ∧
    containsError (.str "") = true := by
  refine ⟨rfl, rfl, rfl⟩

lemma allErrorsList_flat_eq (rules : List Rule) (value data : Val)
    (h : ∀ r ∈ rules, isArrayVal (r value data).2 = false) :
    (allErrorsList rules value data).2 = ruleVals rules value data := by
  rw [allErrorsList_eq]
  refine join_map_singletons _ ?_
  intro e he
  simp only [ruleVals, List.mem_map] at he
  obtain ⟨r, hr, rfl⟩ := he
  exact h r hr

/-- C4 (amended): for rules none of which resolve with an array (which
`allErrors` would splice), `oneOfRules` resolves with `undefined` iff at
least one rule resolved with a JS-falsy value — `undefined`, but also
defined falsy values such as `""` or `0` — and otherwise resolves with the
first failing rule's message in original rule order. -/
theorem oneOfRules_falsy_or_first (rules : List Rule) (value data : Val)
    (hArr : ∀ r ∈ rules, isArrayVal (r value data).2 = false) :
    ((∃ e ∈ ruleVals rules value data, truthy e = false) →
        oneOfRules rules value data
          = ((ruleTraces rules value data).flatten, .undefined)) ∧
    ((∀ e ∈ ruleVals rules value data, truthy e = true) →
        oneOfRules rules value data
          = ((ruleTraces rules value data).flatten,
             (ruleVals rules value data).headD .undefined)) := by
  have hkey : oneOfRules rules value data =
      ( (allErrorsList rules value data).1,
        if ((allErrorsList rules value data).2.filter
              (fun e => !truthy e)).length == 0 then
          ((allErrorsList rules value data).2.filter (fun e => truthy e)).headD .undefined
        else .undefined ) := rfl
  have htr : (allErrorsList rules value data).1
      = (ruleTraces rules value data).flatten := by rw [allErrorsList_eq]
  have hflat := allErrorsList_flat_eq rules value data hArr
  constructor
  · rintro ⟨e, he, hfalse⟩
    rw [hkey, htr, hflat]
    have hmem : e ∈ (ruleVals rules value data).filter (fun e => !truthy e) :=
      List.mem_filter.mpr ⟨he, by simp [hfalse]⟩
    rw [if_neg ?_]
    intro habs
    rw [beq_iff_eq, List.length_eq_zero] at habs
    rw [habs] at hmem
    exact List.not_mem_nil e hmem
  · intro hall
    rw [hkey, htr, hflat]
    have h1 : (ruleVals rules value data).filter (fun e => !truthy e) = [] := by
      refine List.filter_eq_nil_iff.mpr ?_
      intro e he
      simp [hall e he]
    have h2 : (ruleVals rules value data).filter (fun e => truthy e)
        = ruleVals rules value data := by
      refine List.filter_eq_self.mpr ?_
      intro e he
      simp [hall e he]
    rw [h1, h2]
    simp

/-- Witness for `oneOfRules_falsy_or_first`: one failing and one passing
rule; the passing rule's `undefined` result makes the combinator succeed. -/
theorem oneOfRules_falsy_or_first_witness :
    oneOfRules [fun _ _ => (([1] : Trace), Val.str "m"),
                fun _ _ => (([2] : Trace), Val.undefined)] .undefined .undefined
      = ([1, 2], .undefined) :=
  (oneOfRules_falsy_or_first
      [fun _ _ => (([1] : Trace), Val.str "m"),
       fun _ _ => (([2] : Trace), Val.undefined)] .undefined .undefined
      (by
        intro r hr
        rcases List.mem_cons.mp hr with rfl | hr
        · rfl
        · rcases List.mem_cons.mp hr with rfl | hr
          · rfl
          · exact absurd hr (List.not_mem_nil r))).1
    ⟨.undefined, by simp [ruleVals], rfl⟩

/-- C6: `when` evaluates its predicate exactly once (the result trace
starts with exactly the predicate's events); a falsy resolved predicate —
a falsy literal or promise as well as a function resolving falsy — yields
`undefined` with no rule event at all, while a truthy one delegates to
`runRules`, which runs a plain-mapping spec through a freshly built nested
validator against the value and any other spec through `firstError`. -/
theorem when_gates_rules (f : Rule) (x : Val) (rules : RuleSpec)
    (t : List (String × RuleSpec)) (rs : List Rule) (value data : Val) :
    (truthy (f value data).2 = false →
        when (.fn f) rules value data = ((f value data).1, .undefined)) ∧
    (truthy x = false → when (.lit x) rules value data = ([], .undefined)) ∧
    (truthy (f value data).2 = true →
        when (.fn f) rules value data
          = ((f value data).1 ++ (runRules rules value data).1,
             (runRules rules value data).2)) ∧
    (truthy x = true →
        when (.lit x) rules value data = runRules rules value data) ∧
    runRules (.tree t) value data = createValidator t (.obj []) value ∧
    runRules (.rules rs) value data = firstError rs value data := by
  refine ⟨?_, ?_, ?_, ?_, rfl, rfl⟩
  · intro h; simp [when, evalPred, h]
  · intro h; simp [when, evalPred, h]
  · intro h; simp [when, evalPred, h]
  · intro h; simp [when, evalPred, h]

/-- Witness for `when_gates_rules`: a falsy literal predicate suppresses a
failing rule entirely. -/
theorem when_gates_rules_witness :
    when (.lit (.bool false)) (.rule (fun _ _ => (([5] : Trace), Val.str "e")))
        .undefined .undefined = ([], .undefined) :=
  (when_gates_rules (fun _ _ => ([], .undefined)) (.bool false)
      (.rule (fun _ _ => (([5] : Trace), Val.str "e"))) [] [] .undefined .undefined).2.1 rfl

/-- C7: `msgFor` resolves with exactly the caller-supplied message whenever
the underlying run (`runRules`: a nested validator for a plain-mapping
spec, `firstError` otherwise) produced a defined — hence non-empty —
result, regardless of that result's content, and with `undefined` whenever
the underlying run produced no error; the underlying run's events are
preserved either way. -/
theorem msgFor_overrides_message (rules : RuleSpec) (msg value data : Val) :
    ((runRules rules value data).2 = .undefined →
        msgFor rules msg value data = ((runRules rules value data).1, .undefined)) ∧
    ((runRules rules value data).2 ≠ .undefined →
        msgFor rules msg value data = ((runRules rules value data).1, msg)) := by
  constructor
  · intro h
    simp [msgFor, h, containsError, isUndefined]
  · intro h
    simp [msgFor, containsError_of_ne h]

/-- Witness for `msgFor_overrides_message`: the wrapped rule's own message
is discarded in favour of the fixed one. -/
theorem msgFor_overrides_message_witness :
    msgFor (.rule (fun _ _ => ([], .str "detail"))) (.str "X") .undefined .undefined
      = ([], .str "X") :=
  (msgFor_overrides_message (.rule (fun _ _ => ([], .str "detail"))) (.str "X")
      .undefined .undefined).2 (fun h => Val.noConfusion h)

/-- C8 (code bug): when an attribute's spec is a nested `RuleTree` and the
value to validate is not a plain mapping, the executor resolves with the
fixed message `Property <key> must be an object` without recursing (its
trace is empty: no nested rule runs), but — because the shape-mismatch
branch at `src/create-validator.js` line 34 has no `.then(storeErrors)` —
the validator never records that message: the built validator resolves
with `undefined` at such an input instead of storing the message. -/
theorem shape_mismatch_message_never_stored :
    runSpec (.tree [("make", .rule (fun _ _ => (([7] : Trace), Val.str "bad")))])
        "car" (.str "nope") (.obj [("car", .str "nope")])
      = ([], .str ("Property " ++ "car" ++ " must be an object")) ∧
    createValidator
        [("car", .tree [("make", .rule (fun _ _ => (([7] : Trace), Val.str "bad")))])]
        (.obj []) (.obj [("car", .str "nope")])
      = ([], .undefined) := by
  refine ⟨rfl, rfl⟩

/-- C9 counterexample: a validator whose first invocation receives an empty
data object does not fix its baseline: the probe rule observes the empty
object on the first call but the second call's own data object on the
second call, refuting "fixed from the first invocation". -/
theorem wholeData_recapture_cex :
    validatorCalls [("a", .rule probeRule)] (.obj [])
        [.obj [], .obj [("x", .num 1)]]
      = [([], .obj [("a", .obj [])]),
         ([], .obj [("a", .obj [("x", .num 1)])])] ∧
    Val.obj [("x", .num 1)] ≠ Val.obj [] := by
  refine ⟨rfl, ?_⟩
  simp

lemma validatorCalls_fixed (t : List (String × RuleSpec)) (w : Val)
    (hw : isEmptyVal w = false) (ds : List Val) :
    validatorCalls t w ds = ds.map (fun d => createValidator t w d) := by
  induction ds with
  | nil => rfl
  | cons d rest ih => simp [validatorCalls, hw, ih]

/-- C9 (amended): if the first invocation's data object is non-empty, the
`wholeData` baseline is captured from it and every invocation — the first
and all later ones, whatever data they receive — behaves exactly as a
validation run whose baseline is that first data object. -/
theorem wholeData_fixed_after_nonempty (t : List (String × RuleSpec))
    (d₁ : Val) (ds : List Val) (h : isEmptyVal d₁ = false) :
    validatorCalls t (.obj []) (d₁ :: ds)
      = (d₁ :: ds).map (fun d => createValidator t d₁ d) := by
  have h1 : createValidator t (.obj []) d₁ = createValidator t d₁ d₁ := by
    simp [createValidator, isEmptyVal, h]
  have hol : (if isEmptyVal (Val.obj []) then d₁ else Val.obj []) = d₁ := by
    simp [isEmptyVal]
  simp only [validatorCalls, hol, List.map_cons, h1,
    validatorCalls_fixed t d₁ h ds]

/-- Witness for `wholeData_fixed_after_nonempty`: two calls, the first with
non-empty data; both behave as validations with the first data object as
baseline. -/
theorem wholeData_fixed_after_nonempty_witness :
    validatorCalls [("a", .rule probeRule)] (.obj [])
        [.obj [("x", .num 1)], .obj [("y", .num 2)]]
      = [createValidator [("a", .rule probeRule)] (.obj [("x", .num 1)])
           (.obj [("x", .num 1)]),
         createValidator [("a", .rule probeRule)] (.obj [("x", .num 1)])
           (.obj [("y", .num 2)])] :=
  wholeData_fixed_after_nonempty [("a", .rule probeRule)]
    (.obj [("x", .num 1)]) [.obj [("y", .num 2)]] rfl

/-- C10 counterexample: a rule resolving with an array `ErrorMessage` has
its elements spliced into the result sequence by the JS `concat`, so the
result of `allErrors` is not one entry per rule holding each rule's
result. -/
theorem allErrors_splices_array_cex :
    allErrors [fun _ _ => (([] : Trace), Val.arr [.str "a", .str "b"])] .undefined .undefined
        = ([], .arr [.str "a", .str "b"]) ∧
    Val.arr [.str "a", .str "b"]
        ≠ .arr (ruleVals [fun _ _ => (([] : Trace), Val.arr [.str "a", .str "b"])]
            .undefined .undefined) := by
  constructor
  · rfl
  · simp [ruleVals]

/-- C10 (amended): for rules none of which resolve with an array value,
`allErrors` executes every rule in order with no short-circuiting — its
trace is the concatenation of all rule traces in rule order — and resolves
with the full ordered sequence of the rules' results, one entry per rule,
`undefined` entries for passing rules included. -/
theorem allErrors_full_results (rules : List Rule) (value data : Val)
    (h : ∀ r ∈ rules, isArrayVal (r value data).2 = false) :
    allErrors rules value data
      = ((ruleTraces rules value data).flatten,
         .arr (ruleVals rules value data)) := by
  have hkey : allErrors rules value data
      = ((allErrorsList rules value data).1,
         .arr (allErrorsList rules value data).2) := rfl
  rw [hkey, allErrorsList_eq,
    join_map_singletons _ (by
      intro e he
      simp only [ruleVals, List.mem_map] at he
      obtain ⟨r, hr, rfl⟩ := he
      exact h r hr)]

/-- Witness for `allErrors_full_results`: one passing and one failing rule,
both executed, both results kept in order. -/
theorem allErrors_full_results_witness :
    allErrors [fun _ _ => (([1] : Trace), Val.undefined),
               fun _ _ => (([2] : Trace), Val.str "m")] .undefined .undefined
      = ([1, 2], .arr [.undefined, .str "m"]) :=
  allErrors_full_results
    [fun _ _ => (([1] : Trace), Val.undefined),
     fun _ _ => (([2] : Trace), Val.str "m")] .undefined .undefined
    (by
      intro r hr
      rcases List.mem_cons.mp hr with rfl | hr
      · rfl
      · rcases List.mem_cons.mp hr with rfl | hr
        · rfl
        · exact absurd hr (List.not_mem_nil r))

end Yeval
